import Mathlib

/-!
Shallow embedding of the note-transcription core of `wave2midi.py`
(class `WaveToMIDIConverter`): the note segmenter `detect_notes`
(lines 142-225) and the event sequencer `notes_to_midi` (lines 227-287).

Python floats are modelled as exact rationals; Python ints as `ℤ`.
`int(x)` on a float is truncation toward zero (`ratTrunc`); `round(x)`
is round-half-to-even (`pyRound`).  The pitch-estimation front end
(`librosa.pyin`) is external: the segmenter is modelled as a function of
the resulting frame stream plus the audio sample count, exactly as the
spec describes the `segment(frames, config)` contract.
-/

namespace Wave2Midi

/-- Python `round` for floats: round half to even (half to even, as in CPython),
here on exact rationals.  `int(round(x))` in the source is this. -/
def pyRound (q : ℚ) : ℤ :=
  if q - ⌊q⌋ < 1/2 then ⌊q⌋
  else if 1/2 < q - ⌊q⌋ then ⌊q⌋ + 1
  else if ⌊q⌋ % 2 = 0 then ⌊q⌋ else ⌊q⌋ + 1

/-- Python `int(x)` on a float: truncation toward zero. -/
def ratTrunc (q : ℚ) : ℤ := if 0 ≤ q then ⌊q⌋ else -⌊-q⌋

/-- The source computes `int(round(librosa.hz_to_midi(f)))` where
`librosa.hz_to_midi(f) = 69 + 12 * log2(f / 440)`.  For a rational
`f > 0` the value `69 + 12 * log2(f / 440)` is never an exact
half-integer (that would make `f / 440` an irrational power of two), so
rounding is tie-free and `round(69 + 12 * log2(f/440)) = 69 + m` exactly
when `2 ^ (2*m - 1) ≤ (f/440)^24 < 2 ^ (2*m + 1)`, i.e. when
`m = ⌊log2 (2 * (f/440)^24)⌋ fdiv 2`.  `Int.log 2` is the floor of the
real base-2 logarithm on positive rationals, which makes this exact
encoding computable.  (`hzToMidi_spec` below proves the bound
characterisation.) -/
def hzToMidi (f : ℚ) : ℤ :=
  69 + Int.fdiv (Int.log 2 (2 * (f / 440) ^ 24)) 2

/-- One frame of the external pitch estimator stream (`PitchFrame` in the
spec): `f0[i]`, `voiced_flag[i]`, `voiced_probs[i]` in the source.  The
frame index is the position in the list.  An absent frequency is `none`
(the source guards with `f is not None`). -/
structure PitchFrame where
  frequency : Option ℚ
  voiced : Bool
  confidence : ℚ
deriving DecidableEq, Repr

/-- A candidate record built per accepted frame (the dict appended to
`midi_notes` in the source, lines 171-176). -/
structure Candidate where
  pitch : ℤ
  time : ℚ
  velocity : ℤ
  probability : ℚ
deriving DecidableEq, Repr

/-- A closed note (the dicts appended to `final_notes`). -/
structure Note where
  pitch : ℤ
  start_time : ℚ
  duration : ℚ
  velocity : ℤ
deriving DecidableEq, Repr

/-- The per-pitch active-note descriptor (`active_notes[pitch]`). -/
structure ActiveNote where
  start_time : ℚ
  velocity : ℤ
deriving DecidableEq, Repr

/-- The configuration fields of `self.config` that `detect_notes` and
`notes_to_midi` read.  (`fmin`, `fmax`, `frame_length`, `stem_count` and
`model_type` are consumed only by the external pyin/spleeter calls and
are omitted.) -/
structure W2MConfig where
  hop_length : ℚ
  probability_threshold : ℚ
  min_note_duration : ℚ
  max_note_duration : ℚ
  velocity_scaling : ℚ
  instrument_mapping : List (String × ℤ)
deriving DecidableEq, Repr

/-- The default configuration table of `WaveToMIDIConverter.__init__`. -/
def defaultConfig : W2MConfig :=
  { hop_length := 512
    probability_threshold := 1/2
    min_note_duration := 1/10
    max_note_duration := 2
    velocity_scaling := 1
    instrument_mapping :=
      [("vocals", 5), ("drums", 0), ("bass", 33),
       ("piano", 1), ("guitar", 25), ("other", 40)] }

/-- Errors the segmenter can raise.  The source performs no validation of
its own; `nanPitch` models the uncaught Python `ValueError`/`OverflowError`
from `int(round(hz_to_midi(f)))` when a candidate frame carries a
non-positive frequency (`log2` yields `nan`/`-inf`). -/
inductive SegErr where
  | nanPitch
deriving DecidableEq, Repr

/-- Source line 169: `velocity = int(min(127, max(1, prob * 127 *
velocity_scaling)))` - clamp first, then truncate. -/
def velocityOf (cfg : W2MConfig) (prob : ℚ) : ℤ :=
  ratTrunc (min 127 (max 1 (prob * 127 * cfg.velocity_scaling)))

/-- Source lines 165-176, one frame: a candidate is built iff
`voiced and prob > probability_threshold and f is not None`; computing
the pitch then fails for a non-positive frequency. -/
def frameCandidate (cfg : W2MConfig) (sampleRate : ℚ) (i : ℕ)
    (fr : PitchFrame) : Except SegErr (Option Candidate) :=
  match fr.frequency with
  | none => .ok none
  | some f =>
    if fr.voiced ∧ cfg.probability_threshold < fr.confidence then
      if f ≤ 0 then .error .nanPitch
      else .ok (some
        { pitch := hzToMidi f
          time := (i : ℚ) * cfg.hop_length / sampleRate
          velocity := velocityOf cfg fr.confidence
          probability := fr.confidence })
    else .ok none

/-- Source lines 164-176: the `midi_notes` list, built over the enumerated
frame stream starting at index `i`. -/
def candidatesOf (cfg : W2MConfig) (sampleRate : ℚ) (i : ℕ) :
    List PitchFrame → Except SegErr (List Candidate)
  | [] => .ok []
  | fr :: rest =>
    match frameCandidate cfg sampleRate i fr with
    | .error e => .error e
    | .ok c =>
      match candidatesOf cfg sampleRate (i + 1) rest with
      | .error e => .error e
      | .ok cs => .ok (c.toList ++ cs)

/-- Lookup in the insertion-ordered association list modelling the Python
dict `active_notes`. -/
def lookupA (l : List (ℤ × ActiveNote)) (k : ℤ) : Option ActiveNote :=
  match l with
  | [] => none
  | (k1, v) :: rest => if k1 = k then some v else lookupA rest k

/-- Python dict assignment `active_notes[pitch] = {...}`: update in place
if the key exists (its position is preserved), otherwise append. -/
def setA (l : List (ℤ × ActiveNote)) (k : ℤ) (v : ActiveNote) :
    List (ℤ × ActiveNote) :=
  match l with
  | [] => [(k, v)]
  | (k1, v1) :: rest =>
    if k1 = k then (k1, v) :: rest else (k1, v1) :: setA rest k v

/-- Source lines 182-211, one candidate: the body of the grouping loop.
State is `(final_notes, active_notes)`. -/
def stepNote (cfg : W2MConfig) (st : List Note × List (ℤ × ActiveNote))
    (c : Candidate) : List Note × List (ℤ × ActiveNote) :=
  match lookupA st.2 c.pitch with
  | none => (st.1, setA st.2 c.pitch ⟨c.time, c.velocity⟩)
  | some a =>
    let time_diff := c.time - a.start_time
    if cfg.max_note_duration < time_diff then
      let duration := min time_diff cfg.max_note_duration
      let finals :=
        if cfg.min_note_duration ≤ duration then
          st.1 ++ [⟨c.pitch, a.start_time, duration, a.velocity⟩]
        else st.1
      (finals, setA st.2 c.pitch ⟨c.time, c.velocity⟩)
    else st

/-- The grouping loop over the whole candidate list. -/
def processCandidates (cfg : W2MConfig) (cands : List Candidate) :
    List Note × List (ℤ × ActiveNote) :=
  cands.foldl (stepNote cfg) ([], [])

/-- Source lines 213-223: the end-of-stream flush over the remaining
active notes, in dict insertion order. -/
def flushNotes (cfg : W2MConfig) (endTime : ℚ)
    (active : List (ℤ × ActiveNote)) : List Note :=
  active.filterMap fun pa =>
    let duration := endTime - pa.2.start_time
    if cfg.min_note_duration ≤ duration then
      some ⟨pa.1, pa.2.start_time, min duration cfg.max_note_duration,
            pa.2.velocity⟩
    else none

/-- Source `detect_notes(audio, sample_rate)`, lines 142-225, as a
function of the pyin frame stream and the audio length: the
`segment(frames, config)` operation of the spec, with `track_end_time = len(audio) / sample_rate`. -/
def detectNotes (cfg : W2MConfig) (sampleRate : ℚ) (audioLen : ℕ)
    (frames : List PitchFrame) : Except SegErr (List Note) :=
  match candidatesOf cfg sampleRate 0 frames with
  | .error e => .error e
  | .ok cands =>
    let st := processCandidates cfg cands
    .ok (st.1 ++ flushNotes cfg ((audioLen : ℚ) / sampleRate) st.2)

/-- A delta-time-tagged MIDI event as appended to the single `MidiTrack`.
`time` is the delta in ticks. -/
inductive MidiMsg where
  | setTempo (tempo : ℤ) (time : ℤ)
  | programChange (channel : ℤ) (program : ℤ) (time : ℤ)
  | noteOn (note : ℤ) (velocity : ℤ) (time : ℤ)
  | noteOff (note : ℤ) (velocity : ℤ) (time : ℤ)
deriving DecidableEq, Repr

/-- The delta-time field of an event. -/
def MidiMsg.delta : MidiMsg → ℤ
  | .setTempo _ t => t
  | .programChange _ _ t => t
  | .noteOn _ _ t => t
  | .noteOff _ _ t => t

/-- Errors `notes_to_midi` can raise.  The source defines no error types;
these name the uncaught Python exceptions on its call path:
`invalidTempo` is the `ZeroDivisionError` in `mido.bpm2tempo(0)` or the
`ValueError` from the mido set_tempo range check `0 <= tempo <= 0xFFFFFF`;
`invalidData` is the `ValueError` from the mido data-byte check
`0 <= note, velocity, program <= 127` on message construction;
`tickDivZero` is the `ZeroDivisionError` in the seconds-to-ticks
conversion when the integer tempo rounded to 0 microseconds per beat. -/
inductive MidiErr where
  | invalidTempo
  | invalidData
  | tickDivZero
deriving DecidableEq, Repr

/-- Modelled from the spec and the mido documentation:
`mido.bpm2tempo(bpm) = int(round(60 * 1000000 / bpm))`, raising
`ZeroDivisionError` for `bpm = 0`. -/
def midoBpm2tempo (bpm : ℤ) : Except MidiErr ℤ :=
  if bpm = 0 then .error .invalidTempo
  else .ok (pyRound (60000000 / (bpm : ℚ)))

/-- Modelled from the mido documentation: `MetaMessage(set_tempo, tempo=t)` validates `0 <= t <= 16777215`. -/
def mkSetTempo (tempo : ℤ) : Except MidiErr MidiMsg :=
  if 0 ≤ tempo ∧ tempo ≤ 16777215 then .ok (.setTempo tempo 0)
  else .error .invalidTempo

/-- Modelled from the mido documentation: `Message(program_change, channel=0, program=p)` validates `0 <= p <= 127`. -/
def mkProgramChange (program : ℤ) : Except MidiErr MidiMsg :=
  if 0 ≤ program ∧ program ≤ 127 then .ok (.programChange 0 program 0)
  else .error .invalidData

/-- Modelled from the mido documentation: `Message(note_on, ...)`
validates note and velocity in `0..127`; the delta `time` is not range
checked. -/
def mkNoteOn (note velocity time : ℤ) : Except MidiErr MidiMsg :=
  if 0 ≤ note ∧ note ≤ 127 ∧ 0 ≤ velocity ∧ velocity ≤ 127 then
    .ok (.noteOn note velocity time)
  else .error .invalidData

/-- Modelled from the mido documentation: `Message(note_off, ...)` with
the same data-byte validation as `note_on`. -/
def mkNoteOff (note velocity time : ℤ) : Except MidiErr MidiMsg :=
  if 0 ≤ note ∧ note ≤ 127 ∧ 0 ≤ velocity ∧ velocity ≤ 127 then
    .ok (.noteOff note velocity time)
  else .error .invalidData

/-- Modelled from the spec and the mido documentation: the
seconds-to-ticks conversion the source calls with `midi.ticks_per_beat`
(the mido default 480) and the tempo of the meta message it just
appended: `scale = tempo * 1e-6 / ticks_per_beat; ticks = second /
scale`, then `int(round(.))`, raising `ZeroDivisionError` when
`scale == 0`. -/
def midoSecond2tick (second : ℚ) (tempo : ℤ) : Except MidiErr ℤ :=
  if (tempo : ℚ) / 1000000 / 480 = 0 then .error .tickDivZero
  else .ok (pyRound (second / ((tempo : ℚ) / 1000000 / 480)))

/-- Stable insertion of a note into a start_time-sorted list, placing the
new element before the first strictly later one. -/
def insertNote (n : Note) : List Note → List Note
  | [] => [n]
  | m :: rest =>
    if m.start_time ≤ n.start_time then m :: insertNote n rest
    else n :: m :: rest

/-- Source line 251: `notes.sort(key=...)` on the start_time key.
The Python sort is stable; any stable sort on the same key computes the
same list, here insertion sort. -/
def sortNotes : List Note → List Note
  | [] => []
  | n :: rest => insertNote n (sortNotes rest)

/-- Source lines 257-285: the emission loop, carrying `current_tick`.
For each note: start and duration ticks, an optional filler event when
`wait_tick > 0`, a note-on at delta 0, a note-off at delta
`duration_tick`, and `current_tick = start_tick + duration_tick`. -/
def emitLoop (tempo : ℤ) (cur : ℤ) :
    List Note → Except MidiErr (List MidiMsg)
  | [] => .ok []
  | n :: rest =>
    match midoSecond2tick n.start_time tempo with
    | .error e => .error e
    | .ok start_tick =>
      match midoSecond2tick n.duration tempo with
      | .error e => .error e
      | .ok duration_tick =>
        match mkNoteOn n.pitch n.velocity 0 with
        | .error e => .error e
        | .ok onMsg =>
          match mkNoteOff n.pitch 0 duration_tick with
          | .error e => .error e
          | .ok offMsg =>
            match emitLoop tempo (start_tick + duration_tick) rest with
            | .error e => .error e
            | .ok tail =>
              .ok ((if 0 < start_tick - cur then
                      [MidiMsg.noteOn 0 0 (start_tick - cur)]
                    else []) ++ onMsg :: offMsg :: tail)

/-- Key lookup in the instrument-mapping association list. -/
def lookupStr (l : List (String × ℤ)) (k : String) : Option ℤ :=
  match l with
  | [] => none
  | (k1, v) :: rest => if k1 = k then some v else lookupStr rest k

/-- Source line 247: `program = self.config["instrument_mapping"].get(instrument, 0)`,
a dict lookup with default 0 for unmapped instrument names. -/
def progOf (cfg : W2MConfig) (instrument : String) : ℤ :=
  (lookupStr cfg.instrument_mapping instrument).getD 0

/-- Source `notes_to_midi(notes, instrument, tempo)`, lines 227-287: the
`emit(notes, instrument, tempo, config)` operation of the spec.  The result is the
event list of the single track. -/
def notesToMidi (cfg : W2MConfig) (notes : List Note) (instrument : String)
    (tempo : ℤ) : Except MidiErr (List MidiMsg) :=
  match midoBpm2tempo tempo with
  | .error e => .error e
  | .ok tempo_us =>
    match mkSetTempo tempo_us with
    | .error e => .error e
    | .ok tempoMsg =>
      match mkProgramChange (progOf cfg instrument) with
      | .error e => .error e
      | .ok progMsg =>
        match emitLoop tempo_us 0 (sortNotes notes) with
        | .error e => .error e
        | .ok body => .ok (tempoMsg :: progMsg :: body)

/-- The claim-side description of the emission loop, written from the
spec sentence: for each note in sorted order, `start_tick =
round(start_time * ticks_per_second)` and `duration_tick =
round(duration * ticks_per_second)`; a zero-velocity filler event of
delta `start_tick - current_tick` iff that difference is positive; a
note-on at delta 0; a note-off with velocity 0 at delta
`duration_tick`; then `current_tick = start_tick + duration_tick`. -/
def specNoteEvents (tps : ℚ) (cur : ℤ) : List Note → List MidiMsg
  | [] => []
  | n :: rest =>
    let start_tick := pyRound (n.start_time * tps)
    let duration_tick := pyRound (n.duration * tps)
    (if 0 < start_tick - cur then
       [MidiMsg.noteOn 0 0 (start_tick - cur)]
     else []) ++
      MidiMsg.noteOn n.pitch n.velocity 0 ::
        MidiMsg.noteOff n.pitch 0 duration_tick ::
          specNoteEvents tps (start_tick + duration_tick) rest

/-! ### Arithmetic helper lemmas -/

theorem le_pyRound {q : ℚ} {c : ℤ} (h : (c : ℚ) ≤ q) : c ≤ pyRound q := by
  unfold pyRound
  have h1 : c ≤ ⌊q⌋ := Int.le_floor.mpr h
  split
  · exact h1
  · split
    · omega
    · split <;> omega

theorem pyRound_le {q : ℚ} {c : ℤ} (h : q ≤ (c : ℚ)) : pyRound q ≤ c := by
  unfold pyRound
  have h1 : (⌊q⌋ : ℚ) ≤ (c : ℚ) := le_trans (Int.floor_le q) h
  have h2 : ⌊q⌋ ≤ c := by exact_mod_cast h1
  split
  · exact h2
  · rename_i hlt
    push_neg at hlt
    rcases lt_or_eq_of_le h2 with h3 | h3
    · split
      · omega
      · split <;> omega
    · exfalso
      have h4 : (⌊q⌋ : ℚ) = (c : ℚ) := by exact_mod_cast h3
      have h5 : q = (c : ℚ) := le_antisymm h (h4 ▸ Int.floor_le q)
      rw [h5] at hlt
      rw [Int.floor_intCast] at hlt
      norm_num at hlt

theorem pyRound_nonneg {q : ℚ} (h : 0 ≤ q) : 0 ≤ pyRound q :=
  le_pyRound (by exact_mod_cast h)

theorem ratTrunc_of_nonneg {q : ℚ} (h : 0 ≤ q) : ratTrunc q = ⌊q⌋ := by
  unfold ratTrunc
  exact if_pos h

/-- The truncated clamped velocity always lands in `[1, 127]`. -/
theorem velocityOf_bounds (cfg : W2MConfig) (prob : ℚ) :
    1 ≤ velocityOf cfg prob ∧ velocityOf cfg prob ≤ 127 := by
  unfold velocityOf
  set v : ℚ := min 127 (max 1 (prob * 127 * cfg.velocity_scaling)) with hv
  have h1 : (1 : ℚ) ≤ v := le_min (by norm_num) (le_max_left _ _)
  have h0 : (0 : ℚ) ≤ v := le_trans (by norm_num) h1
  have h127 : v ≤ 127 := min_le_left _ _
  rw [ratTrunc_of_nonneg h0]
  constructor
  · exact Int.le_floor.mpr (by exact_mod_cast h1)
  · have := le_trans (Int.floor_le v) h127
    exact_mod_cast this

/-- Correctness of the exact rounding encoding: for a positive frequency,
`hzToMidi f = 69 + m` holds exactly when `69 + 12 * log2 (f/440)` lies in
`[69 + m - 1/2, 69 + m + 1/2]`, phrased multiplicatively as
`2 ^ (2m - 1) ≤ (f/440)^24 < 2 ^ (2m + 1)` (ties are impossible for
rational `f`, so the interval ends are interchangeable). -/
theorem hzToMidi_spec (f : ℚ) (hf : 0 < f) (m : ℤ) :
    hzToMidi f = 69 + m ↔
      (2 : ℚ) ^ (2 * m - 1) ≤ (f / 440) ^ 24 ∧
        (f / 440) ^ 24 < (2 : ℚ) ^ (2 * m + 1) := by
  have hr : (0 : ℚ) < (f / 440) ^ 24 := pow_pos (by positivity) 24
  have h2r : (0 : ℚ) < 2 * (f / 440) ^ 24 := by linarith
  set r : ℚ := (f / 440) ^ 24 with hrdef
  set L : ℤ := Int.log 2 (2 * r) with hL
  have hcast : (((2 : ℕ) : ℚ)) = (2 : ℚ) := by norm_num
  have hlow : (2 : ℚ) ^ L ≤ 2 * r := by
    have := Int.zpow_log_le_self (R := ℚ) (b := 2) (by norm_num) h2r
    rwa [hcast] at this
  have hhigh : 2 * r < (2 : ℚ) ^ (L + 1) := by
    have := Int.lt_zpow_succ_log_self (R := ℚ) (b := 2) (by norm_num) (2 * r)
    rwa [hcast] at this
  have hone : (1 : ℚ) ≤ 2 := by norm_num
  have hmain : hzToMidi f = 69 + m ↔ Int.fdiv L 2 = m := by
    unfold hzToMidi
    rw [← hrdef, ← hL]
    omega
  rw [hmain, Int.fdiv_eq_ediv L (by norm_num)]
  constructor
  · intro hdiv
    have hrange : 2 * m ≤ L ∧ L ≤ 2 * m + 1 := by omega
    constructor
    · have h1 : (2 : ℚ) ^ (2 * m) ≤ (2 : ℚ) ^ L :=
        zpow_le_zpow_right₀ hone hrange.1
      have h2 : (2 : ℚ) ^ (2 * m) = 2 * (2 : ℚ) ^ (2 * m - 1) := by
        have he : 2 * m = (2 * m - 1) + 1 := by ring
        rw [he, zpow_add_one₀ (by norm_num : (2:ℚ) ≠ 0)]
        ring_nf
      nlinarith [le_trans h1 hlow]
    · have h1 : (2 : ℚ) ^ (L + 1) ≤ (2 : ℚ) ^ (2 * m + 2) :=
        zpow_le_zpow_right₀ hone (by omega)
      have h2 : (2 : ℚ) ^ (2 * m + 2) = 2 * (2 : ℚ) ^ (2 * m + 1) := by
        have he : 2 * m + 2 = (2 * m + 1) + 1 := by ring
        rw [he, zpow_add_one₀ (by norm_num : (2:ℚ) ≠ 0)]
        ring_nf
      nlinarith [lt_of_lt_of_le hhigh h1]
  · rintro ⟨hlo, hhi⟩
    have hup : L < 2 * m + 2 := by
      by_contra hcon
      push_neg at hcon
      have h1 : (2 : ℚ) ^ (2 * m + 2) ≤ (2 : ℚ) ^ L :=
        zpow_le_zpow_right₀ hone hcon
      have h2 : (2 : ℚ) ^ (2 * m + 2) = 2 * (2 : ℚ) ^ (2 * m + 1) := by
        have he : 2 * m + 2 = (2 * m + 1) + 1 := by ring
        rw [he, zpow_add_one₀ (by norm_num : (2:ℚ) ≠ 0)]
        ring_nf
      nlinarith [le_trans h1 hlow]
    have hdown : 2 * m ≤ L := by
      by_contra hcon
      push_neg at hcon
      have h1 : (2 : ℚ) ^ (L + 1) ≤ (2 : ℚ) ^ (2 * m) :=
        zpow_le_zpow_right₀ hone (by omega)
      have h2 : (2 : ℚ) ^ (2 * m) = 2 * (2 : ℚ) ^ (2 * m - 1) := by
        have he : 2 * m = (2 * m - 1) + 1 := by ring
        rw [he, zpow_add_one₀ (by norm_num : (2:ℚ) ≠ 0)]
        ring_nf
      nlinarith [lt_of_lt_of_le hhigh h1]
    omega

theorem hzToMidi_440 : hzToMidi 440 = 69 := by
  unfold hzToMidi
  have h2 : (2 * ((440 : ℚ) / 440) ^ 24) = ((2 : ℕ) : ℚ) := by norm_num
  rw [h2, Int.log_natCast]
  have h3 : Nat.log 2 2 = 1 := by simp [Nat.log]
  rw [h3]
  decide

theorem hzToMidi_14080 : hzToMidi 14080 = 129 := by
  unfold hzToMidi
  have h2 : (2 * ((14080 : ℚ) / 440) ^ 24) = (((2 ^ 121 : ℕ)) : ℚ) := by
    push_cast
    norm_num
  rw [h2, Int.log_natCast, Nat.log_pow (by norm_num)]
  decide

/-! ### Candidate-extraction lemmas -/

theorem frameCandidate_ok_some_iff (cfg : W2MConfig) (sr : ℚ) (i : ℕ)
    (fr : PitchFrame) (c : Candidate) :
    frameCandidate cfg sr i fr = .ok (some c) ↔
      fr.voiced = true ∧ cfg.probability_threshold < fr.confidence ∧
        ∃ f, fr.frequency = some f ∧ 0 < f ∧
          c = ⟨hzToMidi f, (i : ℚ) * cfg.hop_length / sr,
               velocityOf cfg fr.confidence, fr.confidence⟩ := by
  unfold frameCandidate
  cases hq : fr.frequency with
  | none =>
    simp only [hq]
    constructor
    · intro h; cases h
    · rintro ⟨-, -, f, hf, -⟩; cases hf
  | some f =>
    simp only [hq]
    by_cases hv : fr.voiced ∧ cfg.probability_threshold < fr.confidence
    · rw [if_pos hv]
      by_cases hf0 : f ≤ 0
      · rw [if_pos hf0]
        constructor
        · intro h; cases h
        · rintro ⟨-, -, g, hg, hgpos, -⟩
          injection hg with hg
          subst hg
          exact absurd hgpos (not_lt.mpr hf0)
      · rw [if_neg hf0]
        push_neg at hf0
        constructor
        · intro h
          injection h with h
          injection h with h
          exact ⟨by simpa using hv.1, hv.2, f, rfl, hf0, h.symm⟩
        · rintro ⟨-, -, g, hg, -, hc⟩
          injection hg with hg
          subst hg
          rw [hc]
    · rw [if_neg hv]
      constructor
      · intro h; cases h
      · rintro ⟨h1, h2, g, hg, -, -⟩
        exact absurd ⟨by simpa using h1, h2⟩ hv

theorem frameCandidate_error_iff (cfg : W2MConfig) (sr : ℚ) (i : ℕ)
    (fr : PitchFrame) :
    frameCandidate cfg sr i fr = .error .nanPitch ↔
      fr.voiced = true ∧ cfg.probability_threshold < fr.confidence ∧
        ∃ f, fr.frequency = some f ∧ f ≤ 0 := by
  unfold frameCandidate
  cases hq : fr.frequency with
  | none =>
    simp only [hq]
    constructor
    · intro h; cases h
    · rintro ⟨-, -, f, hf, -⟩; cases hf
  | some f =>
    simp only [hq]
    by_cases hv : fr.voiced ∧ cfg.probability_threshold < fr.confidence
    · rw [if_pos hv]
      by_cases hf0 : f ≤ 0
      · rw [if_pos hf0]
        exact ⟨fun _ => ⟨by simpa using hv.1, hv.2, f, rfl, hf0⟩, fun _ => rfl⟩
      · rw [if_neg hf0]
        constructor
        · intro h; cases h
        · rintro ⟨-, -, g, hg, hg0⟩
          injection hg with hg
          subst hg
          exact absurd hg0 hf0
    · rw [if_neg hv]
      constructor
      · intro h; cases h
      · rintro ⟨h1, h2, -, -, -⟩
        exact absurd ⟨by simpa using h1, h2⟩ hv

theorem candidatesOf_error_iff (cfg : W2MConfig) (sr : ℚ) :
    ∀ (i : ℕ) (frames : List PitchFrame),
      candidatesOf cfg sr i frames = .error .nanPitch ↔
        ∃ fr ∈ frames, fr.voiced = true ∧
          cfg.probability_threshold < fr.confidence ∧
            ∃ f, fr.frequency = some f ∧ f ≤ 0 := by
  intro i frames
  induction frames generalizing i with
  | nil =>
    simp [candidatesOf]
  | cons fr rest ih =>
    unfold candidatesOf
    constructor
    · intro h
      cases hfc : frameCandidate cfg sr i fr with
      | error e =>
        cases e
        obtain ⟨h1, h2, f, hf, hf0⟩ := (frameCandidate_error_iff cfg sr i fr).mp hfc
        exact ⟨fr, List.mem_cons_self _ _, h1, h2, f, hf, hf0⟩
      | ok c =>
        rw [hfc] at h
        cases hrest : candidatesOf cfg sr (i + 1) rest with
        | error e =>
          cases e
          obtain ⟨fr2, hm, hrest2⟩ := (ih (i + 1)).mp hrest
          exact ⟨fr2, List.mem_cons_of_mem _ hm, hrest2⟩
        | ok cs =>
          rw [hrest] at h
          cases h
    · rintro ⟨fr2, hm, h1, h2, f, hf, hf0⟩
      rcases List.mem_cons.mp hm with heq | hmem
      · subst heq
        rw [(frameCandidate_error_iff cfg sr i fr2).mpr ⟨h1, h2, f, hf, hf0⟩]
      · cases hfc : frameCandidate cfg sr i fr with
        | error e => cases e; rfl
        | ok c =>
          rw [(ih (i + 1)).mpr ⟨fr2, hmem, h1, h2, f, hf, hf0⟩]

theorem candidatesOf_sound (cfg : W2MConfig) (sr : ℚ) :
    ∀ (i : ℕ) (frames : List PitchFrame) (cands : List Candidate),
      candidatesOf cfg sr i frames = .ok cands →
        ∀ c ∈ cands, ∃ fr ∈ frames, ∃ f, fr.frequency = some f ∧ 0 < f ∧
          c.pitch = hzToMidi f ∧ c.velocity = velocityOf cfg fr.confidence := by
  intro i frames
  induction frames generalizing i with
  | nil =>
    intro cands h c hc
    unfold candidatesOf at h
    injection h with h
    subst h
    cases hc
  | cons fr rest ih =>
    intro cands h c hc
    unfold candidatesOf at h
    cases hfc : frameCandidate cfg sr i fr with
    | error e => rw [hfc] at h; cases h
    | ok copt =>
      rw [hfc] at h
      cases hrest : candidatesOf cfg sr (i + 1) rest with
      | error e => rw [hrest] at h; cases h
      | ok cs =>
        rw [hrest] at h
        injection h with h
        subst h
        rcases List.mem_append.mp hc with h1 | h1
        · cases copt with
          | none => cases h1
          | some c0 =>
            rcases List.mem_singleton.mp h1 with rfl
            obtain ⟨-, -, f, hf, hfpos, hc0⟩ :=
              (frameCandidate_ok_some_iff cfg sr i fr c).mp hfc
            exact ⟨fr, List.mem_cons_self _ _, f, hf, hfpos,
              by rw [hc0], by rw [hc0]⟩
        · obtain ⟨fr2, hm, rest2⟩ := ih (i + 1) cs hrest c h1
          exact ⟨fr2, List.mem_cons_of_mem _ hm, rest2⟩

/-! ### Grouping-loop lemmas -/

theorem lookupA_mem {l : List (ℤ × ActiveNote)} {k : ℤ} {a : ActiveNote}
    (h : lookupA l k = some a) : (k, a) ∈ l := by
  induction l with
  | nil => cases h
  | cons hd tl ih =>
    obtain ⟨k1, v1⟩ := hd
    unfold lookupA at h
    split at h
    · rename_i hk
      injection h with h
      subst hk
      subst h
      exact List.mem_cons_self _ _
    · exact List.mem_cons_of_mem _ (ih h)

theorem mem_setA {l : List (ℤ × ActiveNote)} {k : ℤ} {v : ActiveNote}
    {pa : ℤ × ActiveNote} (h : pa ∈ setA l k v) : pa ∈ l ∨ pa = (k, v) := by
  induction l with
  | nil =>
    unfold setA at h
    exact Or.inr (List.mem_singleton.mp h)
  | cons hd tl ih =>
    obtain ⟨k1, v1⟩ := hd
    unfold setA at h
    split at h
    · rename_i hk
      rcases List.mem_cons.mp h with h1 | h1
      · subst hk; exact Or.inr h1
      · exact Or.inl (List.mem_cons_of_mem _ h1)
    · rcases List.mem_cons.mp h with h1 | h1
      · exact Or.inl (h1 ▸ List.mem_cons_self _ _)
      · rcases ih h1 with h2 | h2
        · exact Or.inl (List.mem_cons_of_mem _ h2)
        · exact Or.inr h2

/-- Source lines 193-211: when the candidate pitch has an active entry
and the elapsed time does not exceed `max_note_duration`, the state is
returned unchanged. -/
theorem stepNote_untouched (cfg : W2MConfig)
    (st : List Note × List (ℤ × ActiveNote)) (c : Candidate) (a : ActiveNote)
    (hl : lookupA st.2 c.pitch = some a)
    (hle : c.time - a.start_time ≤ cfg.max_note_duration) :
    stepNote cfg st c = st := by
  unfold stepNote
  rw [hl]
  exact if_neg (not_lt.mpr hle)

/-- Source lines 196-211: when the elapsed time exceeds
`max_note_duration` and `min_note_duration ≤ max_note_duration`, the old
note is emitted with duration exactly `max_note_duration` and the entry
is reopened at the candidate time and velocity. -/
theorem stepNote_closure (cfg : W2MConfig)
    (st : List Note × List (ℤ × ActiveNote)) (c : Candidate) (a : ActiveNote)
    (hl : lookupA st.2 c.pitch = some a)
    (hgt : cfg.max_note_duration < c.time - a.start_time)
    (hminmax : cfg.min_note_duration ≤ cfg.max_note_duration) :
    stepNote cfg st c =
      (st.1 ++ [⟨c.pitch, a.start_time, cfg.max_note_duration, a.velocity⟩],
       setA st.2 c.pitch ⟨c.time, c.velocity⟩) := by
  have hmin : min (c.time - a.start_time) cfg.max_note_duration =
      cfg.max_note_duration := min_eq_right (le_of_lt hgt)
  unfold stepNote
  rw [hl]
  dsimp only
  rw [hmin, if_pos hgt, if_pos hminmax]

theorem stepNote_notes_cases (cfg : W2MConfig)
    (st : List Note × List (ℤ × ActiveNote)) (c : Candidate) (n : Note)
    (h : n ∈ (stepNote cfg st c).1) :
    n ∈ st.1 ∨ ∃ a, lookupA st.2 c.pitch = some a ∧
      cfg.max_note_duration < c.time - a.start_time ∧
      cfg.min_note_duration ≤
        min (c.time - a.start_time) cfg.max_note_duration ∧
      n = ⟨c.pitch, a.start_time,
           min (c.time - a.start_time) cfg.max_note_duration,
           a.velocity⟩ := by
  unfold stepNote at h
  cases hl : lookupA st.2 c.pitch with
  | none => rw [hl] at h; exact Or.inl h
  | some a =>
    rw [hl] at h
    dsimp only at h
    split at h
    · split at h
      · rcases List.mem_append.mp h with h1 | h1
        · exact Or.inl h1
        · rename_i hgt hmin
          exact Or.inr ⟨a, rfl, hgt, hmin, List.mem_singleton.mp h1⟩
      · exact Or.inl h
    · exact Or.inl h

theorem stepNote_active_cases (cfg : W2MConfig)
    (st : List Note × List (ℤ × ActiveNote)) (c : Candidate)
    (pa : ℤ × ActiveNote) (h : pa ∈ (stepNote cfg st c).2) :
    pa ∈ st.2 ∨ pa = (c.pitch, ⟨c.time, c.velocity⟩) := by
  unfold stepNote at h
  cases hl : lookupA st.2 c.pitch with
  | none => rw [hl] at h; exact mem_setA h
  | some a =>
    rw [hl] at h
    dsimp only at h
    split at h
    · exact mem_setA h
    · exact Or.inl h

/-- Any predicate on the pitch and on the velocity that all candidates,
all already-emitted notes and all active entries satisfy is preserved by
the grouping loop (an emitted note takes its pitch from the candidate
and its start/velocity from the active entry it closes). -/
theorem foldl_stepNote_inv (cfg : W2MConfig) (P : ℤ → Prop) (Q : ℤ → Prop) :
    ∀ (cands : List Candidate) (st : List Note × List (ℤ × ActiveNote)),
      (∀ c ∈ cands, P c.pitch ∧ Q c.velocity) →
      (∀ n ∈ st.1, P n.pitch ∧ Q n.velocity) →
      (∀ pa ∈ st.2, P pa.1 ∧ Q pa.2.velocity) →
      (∀ n ∈ (cands.foldl (stepNote cfg) st).1, P n.pitch ∧ Q n.velocity) ∧
        (∀ pa ∈ (cands.foldl (stepNote cfg) st).2,
          P pa.1 ∧ Q pa.2.velocity) := by
  intro cands
  induction cands with
  | nil => intro st _ h1 h2; exact ⟨h1, h2⟩
  | cons c rest ih =>
    intro st hc h1 h2
    rw [List.foldl_cons]
    have hcHead := hc c (List.mem_cons_self _ _)
    apply ih
    · intro x hx; exact hc x (List.mem_cons_of_mem _ hx)
    · intro n hn
      rcases stepNote_notes_cases cfg st c n hn with h | ⟨a, hl, -, -, hna⟩
      · exact h1 n h
      · have ha : (c.pitch, a) ∈ st.2 := lookupA_mem hl
        have := h2 _ ha
        rw [hna]
        exact ⟨hcHead.1, this.2⟩
    · intro pa hpa
      rcases stepNote_active_cases cfg st c pa hpa with h | h
      · exact h2 pa h
      · rw [h]; exact ⟨hcHead.1, hcHead.2⟩

/-- Every note the grouping loop emits mid-stream (i.e. that is not in
the initial note list) has duration exactly `max_note_duration`. -/
theorem foldl_stepNote_duration (cfg : W2MConfig) :
    ∀ (cands : List Candidate) (st : List Note × List (ℤ × ActiveNote)),
      (∀ n ∈ st.1, n.duration = cfg.max_note_duration) →
      ∀ n ∈ (cands.foldl (stepNote cfg) st).1,
        n.duration = cfg.max_note_duration := by
  intro cands
  induction cands with
  | nil => intro st h1 n hn; exact h1 n hn
  | cons c rest ih =>
    intro st h1 n hn
    rw [List.foldl_cons] at hn
    refine ih (stepNote cfg st c) ?_ n hn
    intro m hm
    rcases stepNote_notes_cases cfg st c m hm with h | ⟨a, -, hgt, -, hma⟩
    · exact h1 m h
    · rw [hma]
      exact min_eq_right (le_of_lt hgt)

/-! ### Flush lemmas -/

/-- Exactly the active entries whose un-clamped duration
`endTime - start_time` reaches `min_note_duration` are flushed, with
duration clamped to `max_note_duration`. -/
theorem mem_flushNotes {cfg : W2MConfig} {endTime : ℚ}
    {active : List (ℤ × ActiveNote)} {n : Note} :
    n ∈ flushNotes cfg endTime active ↔
      ∃ p a, (p, a) ∈ active ∧
        cfg.min_note_duration ≤ endTime - a.start_time ∧
        n = ⟨p, a.start_time,
             min (endTime - a.start_time) cfg.max_note_duration,
             a.velocity⟩ := by
  unfold flushNotes
  rw [List.mem_filterMap]
  constructor
  · rintro ⟨⟨p, a⟩, hmem, hf⟩
    dsimp only at hf
    split at hf
    · rename_i hc
      injection hf with hf
      exact ⟨p, a, hmem, hc, hf.symm⟩
    · cases hf
  · rintro ⟨p, a, hmem, hc, hn⟩
    refine ⟨(p, a), hmem, ?_⟩
    dsimp only
    rw [if_pos hc, hn]

/-! ### Sequencer lemmas -/

theorem mem_insertNote {n m : Note} {l : List Note} :
    m ∈ insertNote n l ↔ m = n ∨ m ∈ l := by
  induction l with
  | nil =>
    unfold insertNote
    simp
  | cons hd tl ih =>
    unfold insertNote
    split
    · constructor
      · intro h
        rcases List.mem_cons.mp h with h1 | h1
        · exact Or.inr (h1 ▸ List.mem_cons_self _ _)
        · rcases ih.mp h1 with h2 | h2
          · exact Or.inl h2
          · exact Or.inr (List.mem_cons_of_mem _ h2)
      · intro h
        rcases h with h1 | h1
        · exact List.mem_cons_of_mem _ (ih.mpr (Or.inl h1))
        · rcases List.mem_cons.mp h1 with h2 | h2
          · exact h2 ▸ List.mem_cons_self _ _
          · exact List.mem_cons_of_mem _ (ih.mpr (Or.inr h2))
    · simp [List.mem_cons]

theorem mem_sortNotes {n : Note} {l : List Note} :
    n ∈ sortNotes l ↔ n ∈ l := by
  induction l with
  | nil => simp [sortNotes]
  | cons hd tl ih =>
    unfold sortNotes
    rw [mem_insertNote, ih, List.mem_cons]

theorem second2tick_ok {second : ℚ} {tempo : ℤ} (h0 : tempo ≠ 0) :
    midoSecond2tick second tempo =
      .ok (pyRound (second * (480 * 1000000 / (tempo : ℚ)))) := by
  unfold midoSecond2tick
  have ht : ((tempo : ℚ)) ≠ 0 := Int.cast_ne_zero.mpr h0
  have hcond : ((tempo : ℚ) / 1000000 / 480) ≠ 0 :=
    div_ne_zero (div_ne_zero ht (by norm_num)) (by norm_num)
  rw [if_neg hcond]
  have harith : second / ((tempo : ℚ) / 1000000 / 480) =
      second * (480 * 1000000 / (tempo : ℚ)) := by
    rw [div_div, div_div_eq_mul_div]
    ring
  rw [harith]

theorem second2tick_tempo_ne_zero {second : ℚ} {tempo st : ℤ}
    (h : midoSecond2tick second tempo = .ok st) : tempo ≠ 0 := by
  intro h0
  subst h0
  unfold midoSecond2tick at h
  rw [if_pos (by norm_num)] at h
  cases h

theorem mkNoteOn_ok {note vel t : ℤ} {m : MidiMsg}
    (h : mkNoteOn note vel t = .ok m) :
    m = .noteOn note vel t ∧ 0 ≤ note ∧ note ≤ 127 ∧
      0 ≤ vel ∧ vel ≤ 127 := by
  unfold mkNoteOn at h
  split at h
  · rename_i hcond
    injection h with h
    exact ⟨h.symm, hcond.1, hcond.2.1, hcond.2.2.1, hcond.2.2.2⟩
  · cases h

theorem mkNoteOff_ok {note vel t : ℤ} {m : MidiMsg}
    (h : mkNoteOff note vel t = .ok m) :
    m = .noteOff note vel t ∧ 0 ≤ note ∧ note ≤ 127 ∧
      0 ≤ vel ∧ vel ≤ 127 := by
  unfold mkNoteOff at h
  split at h
  · rename_i hcond
    injection h with h
    exact ⟨h.symm, hcond.1, hcond.2.1, hcond.2.2.1, hcond.2.2.2⟩
  · cases h

theorem mkSetTempo_ok {t : ℤ} {m : MidiMsg} (h : mkSetTempo t = .ok m) :
    m = .setTempo t 0 ∧ 0 ≤ t ∧ t ≤ 16777215 := by
  unfold mkSetTempo at h
  split at h
  · rename_i hcond
    injection h with h
    exact ⟨h.symm, hcond.1, hcond.2⟩
  · cases h

theorem mkProgramChange_ok {p : ℤ} {m : MidiMsg}
    (h : mkProgramChange p = .ok m) :
    m = .programChange 0 p 0 ∧ 0 ≤ p ∧ p ≤ 127 := by
  unfold mkProgramChange at h
  split at h
  · rename_i hcond
    injection h with h
    exact ⟨h.symm, hcond.1, hcond.2⟩
  · cases h

theorem midoBpm2tempo_ok {bpm t : ℤ} (h : midoBpm2tempo bpm = .ok t) :
    bpm ≠ 0 ∧ t = pyRound (60000000 / (bpm : ℚ)) := by
  unfold midoBpm2tempo at h
  split at h
  · cases h
  · rename_i hbpm
    injection h with h
    exact ⟨hbpm, h.symm⟩

/-- Given overall success, the emission loop produces exactly the events
the spec sentence describes, with `ticks_per_second = ticks_per_beat *
1000000 / tempo_microseconds` and the cursor recurrence
`current_tick = start_tick + duration_tick`. -/
theorem emitLoop_ok_spec (tempo : ℤ) :
    ∀ (notes : List Note) (cur : ℤ) (msgs : List MidiMsg),
      emitLoop tempo cur notes = .ok msgs →
      msgs = specNoteEvents (480 * 1000000 / (tempo : ℚ)) cur notes := by
  intro notes
  induction notes with
  | nil =>
    intro cur msgs h
    unfold emitLoop at h
    injection h with h
    subst h
    rfl
  | cons n rest ih =>
    intro cur msgs h
    unfold emitLoop at h
    cases hst : midoSecond2tick n.start_time tempo with
    | error e => rw [hst] at h; cases h
    | ok st =>
      rw [hst] at h
      have h0 : tempo ≠ 0 := second2tick_tempo_ne_zero hst
      have hstv : st = pyRound (n.start_time * (480 * 1000000 / (tempo : ℚ))) := by
        rw [second2tick_ok h0] at hst
        injection hst with hst
        exact hst.symm
      cases hdt : midoSecond2tick n.duration tempo with
      | error e => rw [hdt] at h; cases h
      | ok dt =>
        rw [hdt] at h
        have hdtv : dt = pyRound (n.duration * (480 * 1000000 / (tempo : ℚ))) := by
          rw [second2tick_ok h0] at hdt
          injection hdt with hdt
          exact hdt.symm
        cases hon : mkNoteOn n.pitch n.velocity 0 with
        | error e => rw [hon] at h; cases h
        | ok onMsg =>
          rw [hon] at h
          dsimp only at h
          obtain ⟨honv, -⟩ := mkNoteOn_ok hon
          cases hoff : mkNoteOff n.pitch 0 dt with
          | error e => rw [hoff] at h; cases h
          | ok offMsg =>
            rw [hoff] at h
            obtain ⟨hoffv, -⟩ := mkNoteOff_ok hoff
            cases hrest : emitLoop tempo (st + dt) rest with
            | error e => rw [hrest] at h; cases h
            | ok tail =>
              rw [hrest] at h
              injection h with h
              subst h
              subst honv
              subst hoffv
              rw [ih _ _ hrest]
              subst hstv
              subst hdtv
              rfl

theorem emitLoop_ok_of_valid (tempo : ℤ) (h0 : tempo ≠ 0) :
    ∀ (notes : List Note) (cur : ℤ),
      (∀ n ∈ notes, 0 ≤ n.pitch ∧ n.pitch ≤ 127 ∧
        0 ≤ n.velocity ∧ n.velocity ≤ 127) →
      ∃ msgs, emitLoop tempo cur notes = .ok msgs := by
  intro notes
  induction notes with
  | nil => intro cur _; exact ⟨[], rfl⟩
  | cons n rest ih =>
    intro cur hvalid
    have hn := hvalid n (List.mem_cons_self _ _)
    obtain ⟨tail, htail⟩ := ih
      (pyRound (n.start_time * (480 * 1000000 / (tempo : ℚ))) +
        pyRound (n.duration * (480 * 1000000 / (tempo : ℚ))))
      (fun m hm => hvalid m (List.mem_cons_of_mem _ hm))
    refine ⟨(if 0 < pyRound (n.start_time * (480 * 1000000 / (tempo : ℚ))) - cur
             then [MidiMsg.noteOn 0 0
               (pyRound (n.start_time * (480 * 1000000 / (tempo : ℚ))) - cur)]
             else []) ++
            MidiMsg.noteOn n.pitch n.velocity 0 ::
              MidiMsg.noteOff n.pitch 0
                (pyRound (n.duration * (480 * 1000000 / (tempo : ℚ)))) ::
                tail, ?_⟩
    unfold emitLoop
    rw [second2tick_ok h0, second2tick_ok h0]
    dsimp only
    unfold mkNoteOn
    rw [if_pos ⟨hn.1, hn.2.1, hn.2.2.1, hn.2.2.2⟩]
    dsimp only
    unfold mkNoteOff
    rw [if_pos ⟨hn.1, hn.2.1, le_refl (0 : ℤ), by norm_num⟩]
    dsimp only
    rw [htail]

theorem emitLoop_delta_nonneg (tempo : ℤ) (hnn : 0 ≤ tempo) :
    ∀ (notes : List Note) (cur : ℤ) (msgs : List MidiMsg),
      (∀ n ∈ notes, 0 ≤ n.duration) →
      emitLoop tempo cur notes = .ok msgs →
      ∀ m ∈ msgs, 0 ≤ m.delta := by
  intro notes
  induction notes with
  | nil =>
    intro cur msgs _ h m hm
    unfold emitLoop at h
    injection h with h
    subst h
    cases hm
  | cons n rest ih =>
    intro cur msgs hdur h m hm
    unfold emitLoop at h
    cases hst : midoSecond2tick n.start_time tempo with
    | error e => rw [hst] at h; cases h
    | ok st =>
      rw [hst] at h
      have h0 : tempo ≠ 0 := second2tick_tempo_ne_zero hst
      have hpos : (0 : ℚ) < (480 * 1000000 / (tempo : ℚ)) := by
        apply div_pos (by norm_num)
        have hz : (0 : ℤ) < tempo := lt_of_le_of_ne hnn (Ne.symm h0)
        exact_mod_cast hz
      cases hdt : midoSecond2tick n.duration tempo with
      | error e => rw [hdt] at h; cases h
      | ok dt =>
        rw [hdt] at h
        have hdtv : dt = pyRound (n.duration * (480 * 1000000 / (tempo : ℚ))) := by
          rw [second2tick_ok h0] at hdt
          injection hdt with hdt
          exact hdt.symm
        cases hon : mkNoteOn n.pitch n.velocity 0 with
        | error e => rw [hon] at h; cases h
        | ok onMsg =>
          rw [hon] at h
          dsimp only at h
          obtain ⟨honv, -⟩ := mkNoteOn_ok hon
          cases hoff : mkNoteOff n.pitch 0 dt with
          | error e => rw [hoff] at h; cases h
          | ok offMsg =>
            rw [hoff] at h
            obtain ⟨hoffv, -⟩ := mkNoteOff_ok hoff
            cases hrest : emitLoop tempo (st + dt) rest with
            | error e => rw [hrest] at h; cases h
            | ok tail =>
              rw [hrest] at h
              injection h with h
              subst h
              have htail := ih _ _
                (fun x hx => hdur x (List.mem_cons_of_mem _ hx)) hrest
              rcases List.mem_append.mp hm with h1 | h1
              · by_cases hw : 0 < st - cur
                · rw [if_pos hw] at h1
                  rcases List.mem_singleton.mp h1 with rfl
                  exact le_of_lt hw
                · rw [if_neg hw] at h1
                  cases h1
              · rcases List.mem_cons.mp h1 with h2 | h2
                · subst h2
                  rw [honv]
                  exact le_refl 0
                · rcases List.mem_cons.mp h2 with h3 | h3
                  · subst h3
                    rw [hoffv]
                    have hd : (0 : ℚ) ≤ n.duration :=
                      hdur n (List.mem_cons_self _ _)
                    show 0 ≤ dt
                    rw [hdtv]
                    exact pyRound_nonneg (mul_nonneg hd (le_of_lt hpos))
                  · exact htail m h3

theorem emitLoop_ne_invalidTempo (tempo : ℤ) :
    ∀ (notes : List Note) (cur : ℤ),
      emitLoop tempo cur notes ≠ .error .invalidTempo := by
  intro notes
  induction notes with
  | nil => intro cur h; cases h
  | cons n rest ih =>
    intro cur h
    unfold emitLoop at h
    cases hst : midoSecond2tick n.start_time tempo with
    | error e =>
      rw [hst] at h
      unfold midoSecond2tick at hst
      split at hst
      · injection hst with hst
        subst hst
        injection h with h
        cases h
      · cases hst
    | ok st =>
      rw [hst] at h
      cases hdt : midoSecond2tick n.duration tempo with
      | error e =>
        rw [hdt] at h
        unfold midoSecond2tick at hdt
        split at hdt
        · injection hdt with hdt
          subst hdt
          injection h with h
          cases h
        · cases hdt
      | ok dt =>
        rw [hdt] at h
        cases hon : mkNoteOn n.pitch n.velocity 0 with
        | error e =>
          rw [hon] at h
          unfold mkNoteOn at hon
          split at hon
          · cases hon
          · injection hon with hon
            subst hon
            injection h with h
            cases h
        | ok onMsg =>
          rw [hon] at h
          dsimp only at h
          cases hoff : mkNoteOff n.pitch 0 dt with
          | error e =>
            rw [hoff] at h
            unfold mkNoteOff at hoff
            split at hoff
            · cases hoff
            · injection hoff with hoff
              subst hoff
              injection h with h
              cases h
          | ok offMsg =>
            rw [hoff] at h
            cases hrest : emitLoop tempo (st + dt) rest with
            | error e =>
              rw [hrest] at h
              injection h with h
              subst h
              exact ih _ hrest
            | ok tail => rw [hrest] at h; cases h

theorem mkProgramChange_error {p : ℤ} {e : MidiErr}
    (h : mkProgramChange p = .error e) : e = .invalidData := by
  unfold mkProgramChange at h
  split at h
  · cases h
  · injection h with h
    exact h.symm

theorem notesToMidi_ok_inv {cfg : W2MConfig} {notes : List Note}
    {instr : String} {tempo : ℤ} {tr : List MidiMsg}
    (h : notesToMidi cfg notes instr tempo = .ok tr) :
    tempo ≠ 0 ∧
      0 ≤ pyRound (60000000 / (tempo : ℚ)) ∧
      pyRound (60000000 / (tempo : ℚ)) ≤ 16777215 ∧
      0 ≤ progOf cfg instr ∧ progOf cfg instr ≤ 127 ∧
      ∃ body,
        emitLoop (pyRound (60000000 / (tempo : ℚ))) 0 (sortNotes notes) =
          .ok body ∧
        tr = .setTempo (pyRound (60000000 / (tempo : ℚ))) 0 ::
          .programChange 0 (progOf cfg instr) 0 :: body := by
  unfold notesToMidi at h
  cases hbt : midoBpm2tempo tempo with
  | error e => rw [hbt] at h; cases h
  | ok t =>
    rw [hbt] at h
    obtain ⟨h0, htv⟩ := midoBpm2tempo_ok hbt
    subst htv
    dsimp only at h
    cases hset : mkSetTempo (pyRound (60000000 / (tempo : ℚ))) with
    | error e => rw [hset] at h; cases h
    | ok tm =>
      rw [hset] at h
      dsimp only at h
      obtain ⟨htm, hb1, hb2⟩ := mkSetTempo_ok hset
      cases hpc : mkProgramChange (progOf cfg instr) with
      | error e => rw [hpc] at h; cases h
      | ok pm =>
        rw [hpc] at h
        dsimp only at h
        obtain ⟨hpm, hp1, hp2⟩ := mkProgramChange_ok hpc
        cases hel : emitLoop (pyRound (60000000 / (tempo : ℚ))) 0
            (sortNotes notes) with
        | error e => rw [hel] at h; cases h
        | ok body =>
          rw [hel] at h
          injection h with h
          subst h
          subst htm
          subst hpm
          exact ⟨h0, hb1, hb2, hp1, hp2, body, rfl, rfl⟩

theorem notesToMidi_ok_of {cfg : W2MConfig} {notes : List Note}
    {instr : String} {tempo : ℤ} (h0 : tempo ≠ 0)
    (h1 : 0 ≤ pyRound (60000000 / (tempo : ℚ)))
    (h2 : pyRound (60000000 / (tempo : ℚ)) ≤ 16777215)
    (h3 : 0 ≤ progOf cfg instr) (h4 : progOf cfg instr ≤ 127)
    {body : List MidiMsg}
    (h5 : emitLoop (pyRound (60000000 / (tempo : ℚ))) 0 (sortNotes notes) =
      .ok body) :
    notesToMidi cfg notes instr tempo =
      .ok (.setTempo (pyRound (60000000 / (tempo : ℚ))) 0 ::
        .programChange 0 (progOf cfg instr) 0 :: body) := by
  unfold notesToMidi midoBpm2tempo mkSetTempo mkProgramChange
  rw [if_neg h0]
  dsimp only
  rw [if_pos ⟨h1, h2⟩]
  dsimp only
  rw [if_pos ⟨h3, h4⟩]
  dsimp only
  rw [h5]

theorem notesToMidi_invalidTempo_iff (cfg : W2MConfig) (notes : List Note)
    (instr : String) (tempo : ℤ) :
    notesToMidi cfg notes instr tempo = .error .invalidTempo ↔
      tempo = 0 ∨ pyRound (60000000 / (tempo : ℚ)) < 0 ∨
        16777215 < pyRound (60000000 / (tempo : ℚ)) := by
  unfold notesToMidi midoBpm2tempo mkSetTempo
  by_cases h0 : tempo = 0
  · rw [if_pos h0]
    simp [h0]
  · rw [if_neg h0]
    dsimp only
    by_cases hrange : 0 ≤ pyRound (60000000 / (tempo : ℚ)) ∧
        pyRound (60000000 / (tempo : ℚ)) ≤ 16777215
    · rw [if_pos hrange]
      dsimp only
      constructor
      · intro h
        exfalso
        cases hpc : mkProgramChange (progOf cfg instr) with
        | error e =>
          rw [hpc] at h
          have := mkProgramChange_error hpc
          subst this
          injection h with h
          cases h
        | ok pm =>
          rw [hpc] at h
          cases hel : emitLoop (pyRound (60000000 / (tempo : ℚ))) 0
              (sortNotes notes) with
          | error e =>
            rw [hel] at h
            injection h with h
            subst h
            exact emitLoop_ne_invalidTempo _ _ _ hel
          | ok body => rw [hel] at h; cases h
      · intro h
        rcases h with h | h | h
        · exact absurd h h0
        · exact absurd hrange.1 (not_le.mpr h)
        · exact absurd hrange.2 (not_le.mpr h)
    · rw [if_neg hrange]
      constructor
      · intro _
        rcases not_and_or.mp hrange with h | h
        · exact Or.inr (Or.inl (not_le.mp h))
        · exact Or.inr (Or.inr (not_le.mp h))
      · intro _
        rfl

/-! ### detectNotes structure lemmas -/

theorem detectNotes_ok_structure (cfg : W2MConfig) (sr : ℚ) (audioLen : ℕ)
    (frames : List PitchFrame) (cands : List Candidate)
    (h : candidatesOf cfg sr 0 frames = .ok cands) :
    detectNotes cfg sr audioLen frames =
      .ok ((processCandidates cfg cands).1 ++
        flushNotes cfg ((audioLen : ℚ) / sr)
          (processCandidates cfg cands).2) := by
  unfold detectNotes
  rw [h]

theorem detectNotes_error_iff (cfg : W2MConfig) (sr : ℚ) (audioLen : ℕ)
    (frames : List PitchFrame) :
    detectNotes cfg sr audioLen frames = .error .nanPitch ↔
      ∃ fr ∈ frames, fr.voiced = true ∧
        cfg.probability_threshold < fr.confidence ∧
          ∃ f, fr.frequency = some f ∧ f ≤ 0 := by
  unfold detectNotes
  cases hc : candidatesOf cfg sr 0 frames with
  | error e =>
    cases e
    constructor
    · intro _
      exact (candidatesOf_error_iff cfg sr 0 frames).mp hc
    · intro _
      rfl
  | ok cands =>
    constructor
    · intro h; cases h
    · intro h
      exfalso
      rw [(candidatesOf_error_iff cfg sr 0 frames).mpr h] at hc
      cases hc

/-- Every note `detectNotes` returns satisfies any pitch predicate and
velocity predicate that hold for the candidate pitches and velocities;
with `candidatesOf_sound` and `velocityOf_bounds` this bounds the
velocities and ties the pitches to `hzToMidi` of the input frequencies. -/
theorem detectNotes_note_inv (cfg : W2MConfig) (sr : ℚ) (audioLen : ℕ)
    (frames : List PitchFrame) (ns : List Note)
    (P : ℤ → Prop) (Q : ℤ → Prop)
    (h : detectNotes cfg sr audioLen frames = .ok ns)
    (hPQ : ∀ fr ∈ frames, ∀ f, fr.frequency = some f → 0 < f →
      P (hzToMidi f) ∧ Q (velocityOf cfg fr.confidence)) :
    ∀ n ∈ ns, P n.pitch ∧ Q n.velocity := by
  unfold detectNotes at h
  cases hc : candidatesOf cfg sr 0 frames with
  | error e => rw [hc] at h; cases h
  | ok cands =>
    rw [hc] at h
    injection h with h
    subst h
    have hcand : ∀ c ∈ cands, P c.pitch ∧ Q c.velocity := by
      intro c hmem
      obtain ⟨fr, hfr, f, hf, hfpos, hcp, hcv⟩ :=
        candidatesOf_sound cfg sr 0 frames cands hc c hmem
      obtain ⟨hP, hQ⟩ := hPQ fr hfr f hf hfpos
      rw [hcp, hcv]
      exact ⟨hP, hQ⟩
    obtain ⟨hfin, hact⟩ := foldl_stepNote_inv cfg P Q cands ([], [])
      hcand (by intro n hn; cases hn) (by intro pa hpa; cases hpa)
    intro n hn
    rcases List.mem_append.mp hn with h1 | h1
    · exact hfin n h1
    · obtain ⟨p, a, hmem, -, hn2⟩ := mem_flushNotes.mp h1
      have := hact (p, a) hmem
      rw [hn2]
      exact ⟨this.1, this.2⟩

/-! ### Claim theorems -/

/-- C2: for every frame, segment produces a candidate record if and only
if the frame has `voiced == true`, `confidence > probability_threshold`,
and frequency present and positive; when produced, the candidate time
equals `frame.index * hop_length / sample_rate`. -/
theorem claim_c2 (cfg : W2MConfig) (sr : ℚ) (i : ℕ) (fr : PitchFrame) :
    ((∃ c, frameCandidate cfg sr i fr = .ok (some c)) ↔
      fr.voiced = true ∧ cfg.probability_threshold < fr.confidence ∧
        ∃ f, fr.frequency = some f ∧ 0 < f) ∧
    ∀ c, frameCandidate cfg sr i fr = .ok (some c) →
      c.time = (i : ℚ) * cfg.hop_length / sr := by
  constructor
  · constructor
    · rintro ⟨c, hc⟩
      obtain ⟨h1, h2, f, hf, hf0, -⟩ :=
        (frameCandidate_ok_some_iff cfg sr i fr c).mp hc
      exact ⟨h1, h2, f, hf, hf0⟩
    · rintro ⟨h1, h2, f, hf, hf0⟩
      exact ⟨_, (frameCandidate_ok_some_iff cfg sr i fr _).mpr
        ⟨h1, h2, f, hf, hf0, rfl⟩⟩
  · intro c hc
    obtain ⟨-, -, f, -, -, hc2⟩ :=
      (frameCandidate_ok_some_iff cfg sr i fr c).mp hc
    rw [hc2]

/-- C2 witness: a voiced frame at index 3 with frequency 440 Hz and
confidence 9/10 produces a candidate whose time is `3 * 512 / 22050`. -/
theorem claim_c2_witness :
    (∃ c, frameCandidate defaultConfig 22050 3
        ⟨some 440, true, 9/10⟩ = .ok (some c)) ∧
    ∀ c, frameCandidate defaultConfig 22050 3
        ⟨some 440, true, 9/10⟩ = .ok (some c) →
      c.time = (3 : ℚ) * 512 / 22050 := by
  have h := claim_c2 defaultConfig 22050 3 ⟨some 440, true, 9/10⟩
  constructor
  · exact h.1.mpr ⟨rfl, by norm_num [defaultConfig], 440, rfl, by norm_num⟩
  · intro c hc
    rw [h.2 c hc]
    norm_num [defaultConfig]

/-- C5: a candidate whose pitch already has an active entry and whose
elapsed time since the entry start is at most `max_note_duration`
leaves the whole segmenter state unchanged: the active entry is not
refreshed and no note is emitted at that step. -/
theorem claim_c5 (cfg : W2MConfig) (st : List Note × List (ℤ × ActiveNote))
    (c : Candidate) (a : ActiveNote)
    (h1 : lookupA st.2 c.pitch = some a)
    (h2 : c.time - a.start_time ≤ cfg.max_note_duration) :
    stepNote cfg st c = st :=
  stepNote_untouched cfg st c a h1 h2

/-- C5 witness: a repeated pitch-60 candidate one second into an active
note (max duration 2 s) changes nothing. -/
theorem claim_c5_witness :
    stepNote defaultConfig ([], [((60 : ℤ), ⟨0, 100⟩)]) ⟨60, 1, 90, 1⟩ =
      ([], [((60 : ℤ), ⟨0, 100⟩)]) := by
  apply claim_c5 defaultConfig _ _ ⟨0, 100⟩
  · rfl
  · norm_num [defaultConfig]

/-- C9: every note the segmenter closes mid-stream has duration exactly
`max_note_duration`; moreover, under the config invariant
`min_note_duration ≤ max_note_duration`, a mid-stream closure (elapsed
time beyond `max_note_duration` on an active pitch) always emits exactly
one note and reopens the entry at the candidate time and velocity. -/
theorem claim_c9 (cfg : W2MConfig)
    (hminmax : cfg.min_note_duration ≤ cfg.max_note_duration) :
    (∀ cands : List Candidate,
      ∀ n ∈ (processCandidates cfg cands).1,
        n.duration = cfg.max_note_duration) ∧
    (∀ (st : List Note × List (ℤ × ActiveNote)) (c : Candidate)
        (a : ActiveNote),
      lookupA st.2 c.pitch = some a →
      cfg.max_note_duration < c.time - a.start_time →
      stepNote cfg st c =
        (st.1 ++ [⟨c.pitch, a.start_time, cfg.max_note_duration,
                   a.velocity⟩],
         setA st.2 c.pitch ⟨c.time, c.velocity⟩)) := by
  constructor
  · intro cands n hn
    exact foldl_stepNote_duration cfg cands ([], [])
      (by intro m hm; cases hm) n hn
  · intro st c a h1 h2
    exact stepNote_closure cfg st c a h1 h2 hminmax

/-- C9 witness: a pitch-60 candidate three seconds after the active entry
opened (max duration 2 s) closes the old note with duration exactly 2 and
reopens at time 3 with the new velocity. -/
theorem claim_c9_witness :
    stepNote defaultConfig ([], [((60 : ℤ), ⟨0, 100⟩)]) ⟨60, 3, 90, 1⟩ =
      ([⟨60, 0, 2, 100⟩], [((60 : ℤ), ⟨3, 90⟩)]) := by
  have h := (claim_c9 defaultConfig (by norm_num [defaultConfig])).2
    ([], [((60 : ℤ), ⟨0, 100⟩)]) ⟨60, 3, 90, 1⟩ ⟨0, 100⟩ rfl
    (by norm_num [defaultConfig])
  rw [h]
  norm_num [defaultConfig, setA]

/-- C4: at end of stream the segmenter flushes, for every pitch still
active, the note with `duration = track_end_time - start_time` clamped
to `max_note_duration`, emitted if and only if that duration reaches
`min_note_duration` (so an exactly-`min_note_duration` run is retained
and a strictly shorter one dropped), with
`track_end_time = total sample count / sample_rate`. -/
theorem claim_c4 (cfg : W2MConfig) :
    (∀ (endTime : ℚ) (active : List (ℤ × ActiveNote)) (n : Note),
      n ∈ flushNotes cfg endTime active ↔
        ∃ p a, (p, a) ∈ active ∧
          cfg.min_note_duration ≤ endTime - a.start_time ∧
          n = ⟨p, a.start_time,
               min (endTime - a.start_time) cfg.max_note_duration,
               a.velocity⟩) ∧
    (∀ (sr : ℚ) (audioLen : ℕ) (frames : List PitchFrame)
        (cands : List Candidate),
      candidatesOf cfg sr 0 frames = .ok cands →
      detectNotes cfg sr audioLen frames =
        .ok ((processCandidates cfg cands).1 ++
          flushNotes cfg ((audioLen : ℚ) / sr)
            (processCandidates cfg cands).2)) :=
  ⟨fun _ _ _ => mem_flushNotes,
   fun sr len frames cands h =>
     detectNotes_ok_structure cfg sr len frames cands h⟩

/-- The default mapping sends "piano" to program 1. -/
theorem progOf_piano : progOf defaultConfig "piano" = 1 := by
  simp [progOf, lookupStr, defaultConfig]

/-- C4 witness: a single voiced 440 Hz frame over a 1 s stem flushes one
note at end of stream. -/
theorem claim_c4_witness :
    detectNotes defaultConfig 22050 22050 [⟨some 440, true, 1⟩] =
      .ok ((processCandidates defaultConfig [⟨69, 0, 127, 1⟩]).1 ++
        flushNotes defaultConfig ((22050 : ℚ) / 22050)
          (processCandidates defaultConfig [⟨69, 0, 127, 1⟩]).2) := by
  apply (claim_c4 defaultConfig).2
  norm_num [candidatesOf, frameCandidate, velocityOf, ratTrunc,
    defaultConfig, hzToMidi_440, Option.toList]

/-- C1 counterexample: the code does not clamp the candidate pitch.  A
voiced frame at 14080 Hz (`440 * 2^5`) yields a note with pitch
`round(69 + 12 * log2 32) = 129`, outside the MIDI range `[0, 127]`. -/
theorem claim_c1_counterexample :
    ∃ ns, detectNotes defaultConfig 22050 22050 [⟨some 14080, true, 1⟩] =
        .ok ns ∧
      ∃ n ∈ ns, ¬ (0 ≤ n.pitch ∧ n.pitch ≤ 127) := by
  refine ⟨[⟨129, 0, 1, 127⟩], ?_, ⟨129, 0, 1, 127⟩,
    List.mem_singleton.mpr rfl, by norm_num⟩
  norm_num [detectNotes, candidatesOf, frameCandidate, velocityOf, ratTrunc,
    processCandidates, stepNote, lookupA, setA, flushNotes, defaultConfig,
    hzToMidi_14080, Option.toList, List.filterMap]

/-- C1 amended: the candidate pitch is `round(69 + 12 * log2(f / 440))`
with no clamping; the pitch of every note is that value for the frequency of
the candidate that opened it, so all pitches lie in `[0, 127]` exactly
when every positive input frequency maps into that range. -/
theorem claim_c1_amended (cfg : W2MConfig) (sr : ℚ) (audioLen : ℕ)
    (frames : List PitchFrame) (ns : List Note)
    (h : detectNotes cfg sr audioLen frames = .ok ns)
    (hfreq : ∀ fr ∈ frames, ∀ f, fr.frequency = some f → 0 < f →
      0 ≤ hzToMidi f ∧ hzToMidi f ≤ 127) :
    ∀ n ∈ ns, 0 ≤ n.pitch ∧ n.pitch ≤ 127 := by
  intro n hn
  exact ((detectNotes_note_inv cfg sr audioLen frames ns
    (fun p => 0 ≤ p ∧ p ≤ 127) (fun _ => True) h
    (fun fr hfr f hf hf0 => ⟨hfreq fr hfr f hf hf0, trivial⟩)) n hn).1

/-- C1 witness: with a single 440 Hz frame every emitted pitch (namely
69) lies in the MIDI range. -/
theorem claim_c1_witness :
    0 ≤ (⟨69, 0, 1, 127⟩ : Note).pitch ∧
      (⟨69, 0, 1, 127⟩ : Note).pitch ≤ 127 := by
  have h := claim_c1_amended defaultConfig 22050 22050 [⟨some 440, true, 1⟩]
    [⟨69, 0, 1, 127⟩]
    (by norm_num [detectNotes, candidatesOf, frameCandidate, velocityOf,
      ratTrunc, processCandidates, stepNote, lookupA, setA, flushNotes,
      defaultConfig, hzToMidi_440, Option.toList, List.filterMap])
    (by intro fr hfr f hf hf0
        rcases List.mem_singleton.mp hfr with rfl
        injection hf with hf
        subst hf
        rw [hzToMidi_440]
        norm_num)
  exact h ⟨69, 0, 1, 127⟩ (List.mem_singleton.mpr rfl)

/-- C7 counterexample: a stream containing a voiced frame with
confidence `3/2`, outside `[0, 1]`, is not rejected: segmentation
produces a normal note list and raises nothing. -/
theorem claim_c7_counterexample :
    detectNotes defaultConfig 22050 22050 [⟨some 440, true, 3/2⟩] =
      .ok [⟨69, 0, 1, 127⟩] ∧ ¬ ((3/2 : ℚ) ≤ 1) := by
  constructor
  · norm_num [detectNotes, candidatesOf, frameCandidate, velocityOf, ratTrunc,
      processCandidates, stepNote, lookupA, setA, flushNotes, defaultConfig,
      hzToMidi_440, Option.toList, List.filterMap]
  · norm_num

/-- C7 amended: the segmenter validates nothing itself; it aborts (with
an uncaught arithmetic error, not an `InvalidFrame` error) exactly when
some frame passes the candidate guard (voiced, confidence above the
threshold) while carrying a non-positive present frequency; confidence
outside `[0, 1]` alone never aborts. -/
theorem claim_c7_amended (cfg : W2MConfig) (sr : ℚ) (audioLen : ℕ)
    (frames : List PitchFrame) :
    detectNotes cfg sr audioLen frames = .error .nanPitch ↔
      ∃ fr ∈ frames, fr.voiced = true ∧
        cfg.probability_threshold < fr.confidence ∧
          ∃ f, fr.frequency = some f ∧ f ≤ 0 :=
  detectNotes_error_iff cfg sr audioLen frames

/-- C7 witness for the amended claim: a voiced candidate frame with
frequency -5 makes segmentation abort with the arithmetic error. -/
theorem claim_c7_witness :
    detectNotes defaultConfig 22050 22050 [⟨some (-5), true, 1⟩] =
      .error .nanPitch := by
  apply (claim_c7_amended defaultConfig 22050 22050
    [⟨some (-5), true, 1⟩]).mpr
  exact ⟨⟨some (-5), true, 1⟩, List.mem_singleton.mpr rfl, rfl,
    by norm_num [defaultConfig], -5, rfl, by norm_num⟩

/-- C8 counterexample: velocity is not `clamp(round(conf * 127 *
velocity_scaling), 1, 127)`.  At confidence `1149/1270` the product is
`114.9`: the code truncates the clamped value to 114, while the claimed
round-then-clamp gives 115. -/
theorem claim_c8_counterexample :
    ∃ c, frameCandidate defaultConfig 22050 0 ⟨some 440, true, 1149/1270⟩ =
        .ok (some c) ∧
      c.velocity ≠ min 127 (max 1 (pyRound ((1149/1270 : ℚ) * 127 * 1))) := by
  refine ⟨⟨69, 0, 114, 1149/1270⟩, ?_, ?_⟩
  · norm_num [frameCandidate, velocityOf, ratTrunc, defaultConfig,
      hzToMidi_440]
  · norm_num [pyRound]

/-- C8 amended: the candidate velocity is `int(min(127, max(1, conf *
127 * velocity_scaling)))` - the clamped value truncated toward zero,
not rounded; consequently every note the segmenter returns has velocity
in `[1, 127]`. -/
theorem claim_c8_amended (cfg : W2MConfig) :
    (∀ (sr : ℚ) (i : ℕ) (fr : PitchFrame) (c : Candidate),
      frameCandidate cfg sr i fr = .ok (some c) →
      c.velocity = ratTrunc (min 127
        (max 1 (fr.confidence * 127 * cfg.velocity_scaling)))) ∧
    (∀ (sr : ℚ) (audioLen : ℕ) (frames : List PitchFrame) (ns : List Note),
      detectNotes cfg sr audioLen frames = .ok ns →
      ∀ n ∈ ns, 1 ≤ n.velocity ∧ n.velocity ≤ 127) := by
  constructor
  · intro sr i fr c hc
    obtain ⟨-, -, f, -, -, hc2⟩ :=
      (frameCandidate_ok_some_iff cfg sr i fr c).mp hc
    rw [hc2]
    rfl
  · intro sr len frames ns h n hn
    exact ((detectNotes_note_inv cfg sr len frames ns
      (fun _ => True) (fun v => 1 ≤ v ∧ v ≤ 127) h
      (fun fr hfr f hf hf0 =>
        ⟨trivial, velocityOf_bounds cfg fr.confidence⟩)) n hn).2

/-- C8 witness: at confidence 1 the candidate velocity is exactly the
truncated clamp (127), and the velocity of the resulting note is in range. -/
theorem claim_c8_witness :
    ((⟨69, 0, 127, 1⟩ : Candidate).velocity =
      ratTrunc (min 127 (max 1 ((1 : ℚ) * 127 * 1)))) ∧
    ∀ n ∈ [(⟨69, 0, 1, 127⟩ : Note)], 1 ≤ n.velocity ∧ n.velocity ≤ 127 := by
  constructor
  · have h := (claim_c8_amended defaultConfig).1 22050 0
      ⟨some 440, true, 1⟩ ⟨69, 0, 127, 1⟩
      (by norm_num [frameCandidate, velocityOf, ratTrunc, defaultConfig,
        hzToMidi_440])
    simpa [defaultConfig] using h
  · apply (claim_c8_amended defaultConfig).2 22050 22050 [⟨some 440, true, 1⟩]
    norm_num [detectNotes, candidatesOf, frameCandidate, velocityOf, ratTrunc,
      processCandidates, stepNote, lookupA, setA, flushNotes, defaultConfig,
      hzToMidi_440, Option.toList, List.filterMap]

/-- C3: on success, emit produces the tempo and program events followed
by exactly the event stream of the spec sentence over the notes sorted
by start time: per note, `start_tick = round(start_time *
ticks_per_second)` and `duration_tick = round(duration *
ticks_per_second)`; a zero-velocity filler event of delta `start_tick -
current_tick` iff that delta is positive (none when it is 0); a note-on
at delta 0; a note-off with velocity 0 at delta `duration_tick`; then
`current_tick = start_tick + duration_tick`, starting from cursor 0. -/
theorem claim_c3 (cfg : W2MConfig) (notes : List Note) (instr : String)
    (tempo : ℤ) (tr : List MidiMsg)
    (h : notesToMidi cfg notes instr tempo = .ok tr) :
    tr = .setTempo (pyRound (60000000 / (tempo : ℚ))) 0 ::
      .programChange 0 (progOf cfg instr) 0 ::
        specNoteEvents
          (480 * 1000000 / ((pyRound (60000000 / (tempo : ℚ)) : ℤ) : ℚ)) 0
          (sortNotes notes) := by
  obtain ⟨-, -, -, -, -, body, hel, htr⟩ := notesToMidi_ok_inv h
  subst htr
  rw [emitLoop_ok_spec _ _ _ _ hel]

/-- C3 witness: two disjoint notes (gap between them) produce a filler
event of exactly the gap, and no filler where the cursor already
coincides. -/
theorem claim_c3_witness :
    ([.setTempo 500000 0, .programChange 0 1 0, .noteOn 60 100 0,
      .noteOff 60 0 960, .noteOn 0 0 480, .noteOn 64 100 0,
      .noteOff 64 0 960] : List MidiMsg) =
      .setTempo (pyRound (60000000 / ((120 : ℤ) : ℚ))) 0 ::
        .programChange 0 (progOf defaultConfig "piano") 0 ::
          specNoteEvents
            (480 * 1000000 /
              ((pyRound (60000000 / ((120 : ℤ) : ℚ)) : ℤ) : ℚ)) 0
            (sortNotes [⟨60, 0, 1, 100⟩, ⟨64, 3/2, 1, 100⟩]) := by
  apply claim_c3 defaultConfig [⟨60, 0, 1, 100⟩, ⟨64, 3/2, 1, 100⟩]
    "piano" 120
  norm_num [notesToMidi, midoBpm2tempo, mkSetTempo, mkProgramChange,
    progOf_piano, sortNotes, insertNote, emitLoop, midoSecond2tick, mkNoteOn,
    mkNoteOff, pyRound]

/-- C10: every delta-time in the emitted stream is non-negative for
every input note list with non-negative durations, overlapping notes
included: an overlapped note emits no filler (never a negative delta)
and its note-off delta is the non-negative `duration_tick`. -/
theorem claim_c10 (cfg : W2MConfig) (notes : List Note) (instr : String)
    (tempo : ℤ) (tr : List MidiMsg)
    (hdur : ∀ n ∈ notes, 0 ≤ n.duration)
    (h : notesToMidi cfg notes instr tempo = .ok tr) :
    ∀ m ∈ tr, 0 ≤ m.delta := by
  obtain ⟨-, hb1, -, -, -, body, hel, htr⟩ := notesToMidi_ok_inv h
  subst htr
  intro m hm
  rcases List.mem_cons.mp hm with rfl | hm2
  · simp [MidiMsg.delta]
  · rcases List.mem_cons.mp hm2 with rfl | hm3
    · simp [MidiMsg.delta]
    · exact emitLoop_delta_nonneg _ hb1 (sortNotes notes) 0 body
        (fun n hn => hdur n (mem_sortNotes.mp hn)) hel m hm3

/-- C10 witness: two overlapping notes (the second starts before the
first ends) still yield only non-negative deltas. -/
theorem claim_c10_witness : 0 ≤ (MidiMsg.noteOff 64 0 960).delta := by
  have h := claim_c10 defaultConfig [⟨60, 0, 1, 100⟩, ⟨64, 1/2, 1, 100⟩]
    "piano" 120
    [.setTempo 500000 0, .programChange 0 1 0, .noteOn 60 100 0,
     .noteOff 60 0 960, .noteOn 64 100 0, .noteOff 64 0 960]
    (by intro n hn
        rcases List.mem_cons.mp hn with rfl | hn2
        · norm_num
        · rcases List.mem_cons.mp hn2 with rfl | hn3
          · norm_num
          · cases hn3)
    (by norm_num [notesToMidi, midoBpm2tempo, mkSetTempo, mkProgramChange,
        progOf_piano, sortNotes, insertNote, emitLoop, midoSecond2tick,
        mkNoteOn, mkNoteOff, pyRound])
  exact h (MidiMsg.noteOff 64 0 960) (by simp)

/-- C6 amended: emit aborts with a tempo error exactly when `tempo_bpm
= 0` (Python division by zero) or `round(60000000 / tempo_bpm)` falls
outside the 3-byte range `[0, 16777215]` of the tempo meta event (for a
positive integer bpm that is `bpm ≤ 3`); for `4 ≤ tempo_bpm ≤ 60000000`
and MIDI-range note pitches, velocities and program it succeeds, and the
tempo meta event carries `round(60000000 / tempo_bpm)` - the rounded
value, 500000 at 120 bpm, not the exact quotient. -/
theorem claim_c6_amended (cfg : W2MConfig) (notes : List Note)
    (instr : String) (tempo : ℤ) :
    (notesToMidi cfg notes instr tempo = .error .invalidTempo ↔
      tempo = 0 ∨ pyRound (60000000 / (tempo : ℚ)) < 0 ∨
        16777215 < pyRound (60000000 / (tempo : ℚ))) ∧
    (4 ≤ tempo → tempo ≤ 60000000 →
      (∀ n ∈ notes, 0 ≤ n.pitch ∧ n.pitch ≤ 127 ∧
        0 ≤ n.velocity ∧ n.velocity ≤ 127) →
      0 ≤ progOf cfg instr → progOf cfg instr ≤ 127 →
      ∃ body, notesToMidi cfg notes instr tempo =
        .ok (.setTempo (pyRound (60000000 / (tempo : ℚ))) 0 ::
          .programChange 0 (progOf cfg instr) 0 :: body)) := by
  constructor
  · exact notesToMidi_invalidTempo_iff cfg notes instr tempo
  · intro h4 h6 hvalid hp1 hp2
    have h0 : tempo ≠ 0 := by omega
    have hq4 : (4 : ℚ) ≤ (tempo : ℚ) := by exact_mod_cast h4
    have hqpos : (0 : ℚ) < (tempo : ℚ) := by linarith
    have hub : (60000000 : ℚ) / (tempo : ℚ) ≤ ((15000000 : ℤ) : ℚ) := by
      rw [div_le_iff₀ hqpos]
      push_cast
      linarith
    have hlb : (((1 : ℤ)) : ℚ) ≤ 60000000 / (tempo : ℚ) := by
      rw [le_div_iff₀ hqpos]
      have h6q : ((tempo : ℚ)) ≤ 60000000 := by exact_mod_cast h6
      push_cast
      linarith
    have hr1 : (1 : ℤ) ≤ pyRound (60000000 / (tempo : ℚ)) := le_pyRound hlb
    have hr2 : pyRound (60000000 / (tempo : ℚ)) ≤ 15000000 := pyRound_le hub
    have hne : pyRound (60000000 / (tempo : ℚ)) ≠ 0 := by omega
    obtain ⟨body, hbody⟩ := emitLoop_ok_of_valid _ hne (sortNotes notes) 0
      (fun n hn => hvalid n (mem_sortNotes.mp hn))
    exact ⟨body, notesToMidi_ok_of h0 (by omega) (by omega) hp1 hp2 hbody⟩

/-- C6 counterexample: at bpm 3 emit fails with a tempo error although
`3 > 0` (the rounded microseconds-per-beat 20000000 exceeds the 3-byte
field); at bpm 7 it succeeds but the tempo event carries 8571429, not
the exact `60000000 / 7`; at bpm 120 with a pitch-200 note it fails; at
bpm 120000000 the tempo rounds to 0 microseconds and the tick conversion
divides by zero. -/
theorem claim_c6_counterexample :
    notesToMidi defaultConfig [] "piano" 3 = .error .invalidTempo ∧
    (notesToMidi defaultConfig [] "piano" 7 =
        .ok [.setTempo 8571429 0, .programChange 0 1 0] ∧
      ((8571429 : ℚ) ≠ 60000000 / 7)) ∧
    notesToMidi defaultConfig [⟨200, 0, 1, 100⟩] "piano" 120 =
      .error .invalidData ∧
    notesToMidi defaultConfig [⟨60, 0, 1, 100⟩] "piano" 120000000 =
      .error .tickDivZero := by
  refine ⟨?_, ⟨?_, by norm_num⟩, ?_, ?_⟩ <;>
    norm_num [notesToMidi, midoBpm2tempo, mkSetTempo, mkProgramChange,
      progOf_piano, sortNotes, insertNote, emitLoop, midoSecond2tick, mkNoteOn,
      mkNoteOff, pyRound]

/-- C6 witness: at 120 bpm with one valid note emit succeeds and the
tempo event carries `round(60000000 / 120) = 500000`. -/
theorem claim_c6_witness :
    ∃ body, notesToMidi defaultConfig [⟨60, 0, 1, 100⟩] "piano" 120 =
      .ok (.setTempo (pyRound (60000000 / ((120 : ℤ) : ℚ))) 0 ::
        .programChange 0 (progOf defaultConfig "piano") 0 :: body) := by
  apply (claim_c6_amended defaultConfig [⟨60, 0, 1, 100⟩] "piano" 120).2
  · norm_num
  · norm_num
  · intro n hn
    rcases List.mem_singleton.mp hn with rfl
    norm_num
  · norm_num [progOf_piano]
  · norm_num [progOf_piano]


end Wave2Midi
